import Mathlib

/-!
Verification of the metering core of the PFM10 audio plugin.

The development embeds, as executable Lean definitions, the subsystems named
by the specification: the block-relay queue `Fifo<T, Size>` built on
`juce::AbstractFifo` (Source/PluginProcessor.h), the `Averager` running mean,
the `DecayingValueHolder` and `ValueHolder` peak trackers, and the editor's
drain loop (Source/PluginEditor.cpp / PluginEditor.h).  Machine floats are
modelled by exact rationals except where a claim is specifically about
NaN/Inf behaviour, for which a small IEEE-style value type is used.
-/

set_option linter.unusedVariables false

namespace PFM10

/-- Constant `NEGATIVE_INFINITY` (`#define NEGATIVE_INFINITY -66.f`, Source/PluginEditor.h):
the floor sentinel used for "silence" throughout the editor. -/
def NEGATIVE_INFINITY : ℚ := -66

/-- Constant `MAX_DECIBELS` (`#define MAX_DECIBELS 12.f`, Source/PluginEditor.h). -/
def MAX_DECIBELS : ℚ := 12

/-- Model of `juce::jlimit (lower, upper, value)`: `value < lower ? lower :
(upper < value ? upper : value)`. -/
def jlimit (lower upper value : ℚ) : ℚ :=
  if value < lower then lower else if upper < value then upper else value

/-! ## The block-relay queue

`Fifo<T, Size>` (Source/PluginProcessor.h, lines 18-70) delegates all index
bookkeeping to a `juce::AbstractFifo { Size }` and stores the payloads in
`std::array<T, Size> buffers`.  The JUCE `AbstractFifo` keeps two counters
`validStart`/`validEnd`, both always in `[0, Size)`; we carry those bounds
(and the slot-array length) as invariant fields of the structure. -/

/-- State of `Fifo<T, Size>`: the `juce::AbstractFifo` counters plus the
slot array.  `size` is the compile-time `Size` template argument. -/
structure Fifo (α : Type) where
  size : ℕ
  validStart : ℕ
  validEnd : ℕ
  buffers : List α
  size_pos : 0 < size
  start_lt : validStart < size
  end_lt : validEnd < size
  buffers_len : buffers.length = size

/-- A freshly constructed queue: both counters zero, every slot holding the
default-constructed payload `d`. -/
def Fifo.init (α : Type) (size : ℕ) (h : 0 < size) (d : α) : Fifo α :=
  ⟨size, 0, 0, List.replicate size d, h, h, h, by simp⟩

/-- Model of `juce::AbstractFifo::getNumReady`, the body of
`Fifo::getNumAvailableForReading`:
`ve >= vs ? (ve - vs) : (bufferSize - (vs - ve))`. -/
def Fifo.numReady {α : Type} (f : Fifo α) : ℕ :=
  if f.validStart ≤ f.validEnd then f.validEnd - f.validStart
  else f.size - (f.validStart - f.validEnd)

/-- The `freeSpace` local computed inside `AbstractFifo::prepareToWrite`:
`ve >= vs ? (bufferSize - (ve - vs)) : (vs - ve)`. -/
def Fifo.writeFreeSpace {α : Type} (f : Fifo α) : ℕ :=
  if f.validStart ≤ f.validEnd then f.size - (f.validEnd - f.validStart)
  else f.validStart - f.validEnd

/-- Model of `juce::AbstractFifo::getFreeSpace`, the body of `Fifo::getAvailableSpace`:
`bufferSize - getNumReady() - 1`. -/
def Fifo.availableSpace {α : Type} (f : Fifo α) : ℕ :=
  f.size - f.numReady - 1

/-- The index update in `AbstractFifo::finishedWrite`/`finishedRead`:
`newEnd = end + 1; if (newEnd >= bufferSize) newEnd -= bufferSize`. -/
def wrapInc (i size : ℕ) : ℕ :=
  if size ≤ i + 1 then i + 1 - size else i + 1

theorem wrapInc_lt {i size : ℕ} (hi : i < size) (hs : 0 < size) :
    wrapInc i size < size := by
  unfold wrapInc; split <;> omega

theorem wrapInc_eq_mod {i size : ℕ} (hi : i < size) : wrapInc i size = (i + 1) % size := by
  unfold wrapInc
  rcases Nat.lt_or_ge (i + 1) size with h | h
  · rw [if_neg (by omega), Nat.mod_eq_of_lt h]
  · have h1 : i + 1 = size := by omega
    rw [if_pos (by omega), h1, Nat.mod_self]
    omega

/-- Model of `Fifo::push` (Source/PluginProcessor.h lines 36-45): ask
`abstractFifo.write (1)` for a slot; if `blockSize1 > 0` copy the payload into
`buffers[startIndex1]` and publish, else return `false`.  In
`prepareToWrite`, `numToWrite = jmin (1, freeSpace - 1)` and
`startIndex1 = validEnd`; the scoped write's destructor advances `validEnd`. -/
def Fifo.push {α : Type} (f : Fifo α) (t : α) : Fifo α × Bool :=
  if min 1 (f.writeFreeSpace - 1) = 0 then (f, false)
  else
    (⟨f.size, f.validStart, wrapInc f.validEnd f.size, f.buffers.set f.validEnd t,
      f.size_pos, f.start_lt, wrapInc_lt f.end_lt f.size_pos, by
        rw [List.length_set]; exact f.buffers_len⟩,
     true)

/-- Model of `Fifo::pull` (Source/PluginProcessor.h lines 47-56): ask
`abstractFifo.read (1)`; if `blockSize1 > 0` copy `buffers[startIndex1]` into
the caller's reference `t` and publish, else return `false` leaving `t`
untouched.  In `prepareToRead`, `numWanted = jmin (1, numReady)` and
`startIndex1 = validStart`; the scoped read's destructor advances
`validStart`. -/
def Fifo.pull {α : Type} (f : Fifo α) (t : α) : Fifo α × α × Bool :=
  if min 1 f.numReady = 0 then (f, t, false)
  else
    (⟨f.size, wrapInc f.validStart f.size, f.validEnd, f.buffers,
      f.size_pos, wrapInc_lt f.start_lt f.size_pos, f.end_lt, f.buffers_len⟩,
     f.buffers.get ⟨f.validStart, by rw [f.buffers_len]; exact f.start_lt⟩,
     true)

/-- The payload `i` steps after the read head (an abstraction of the slot
array used to state queue lemmas). -/
def Fifo.slot {α : Type} (f : Fifo α) (i : ℕ) : α :=
  f.buffers.get ⟨(f.validStart + i) % f.size, by
    rw [f.buffers_len]; exact Nat.mod_lt _ f.size_pos⟩

/-- The queued blocks in FIFO order: the `numReady` slots starting at the
read head. -/
def Fifo.contents {α : Type} (f : Fifo α) : List α :=
  (List.range f.numReady).map f.slot

theorem Fifo.numReady_lt_size {α : Type} (f : Fifo α) : f.numReady < f.size := by
  have h1 := f.start_lt
  have h2 := f.end_lt
  unfold Fifo.numReady
  split <;> omega

theorem Fifo.writeFreeSpace_eq {α : Type} (f : Fifo α) :
    f.writeFreeSpace = f.size - f.numReady := by
  have h1 := f.start_lt
  have h2 := f.end_lt
  unfold Fifo.writeFreeSpace Fifo.numReady
  split <;> omega

theorem Fifo.contents_length {α : Type} (f : Fifo α) :
    f.contents.length = f.numReady := by
  simp [Fifo.contents]

/-- The counter `validEnd` sits `numReady` steps past `validStart`, modulo the size. -/
theorem Fifo.end_eq {α : Type} (f : Fifo α) :
    f.validEnd = (f.validStart + f.numReady) % f.size := by
  have h1 := f.start_lt
  have h2 := f.end_lt
  unfold Fifo.numReady
  split
  · have h3 : f.validStart + (f.validEnd - f.validStart) = f.validEnd := by omega
    rw [h3, Nat.mod_eq_of_lt h2]
  · have h3 : f.validStart + (f.size - (f.validStart - f.validEnd)) =
        f.size + f.validEnd := by omega
    rw [h3, Nat.add_mod_left, Nat.mod_eq_of_lt h2]

/-- Two offsets below `size` that address the same slot are equal. -/
theorem mod_window_inj {size vs i j : ℕ} (hi : i < size) (hj : j < size)
    (h : (vs + i) % size = (vs + j) % size) : i = j := by
  rcases le_total i j with hle | hle
  · have hd := (Nat.modEq_iff_dvd' (Nat.add_le_add_left hle vs)).mp h
    rw [Nat.add_sub_add_left] at hd
    rcases Nat.eq_zero_or_pos (j - i) with h0 | h0
    · omega
    · have := Nat.le_of_dvd h0 hd
      omega
  · have hd := (Nat.modEq_iff_dvd' (Nat.add_le_add_left hle vs)).mp h.symm
    rw [Nat.add_sub_add_left] at hd
    rcases Nat.eq_zero_or_pos (i - j) with h0 | h0
    · omega
    · have := Nat.le_of_dvd h0 hd
      omega

/-- A push onto a queue holding fewer than `Size - 1` blocks: the slot at
`validEnd` is overwritten, `validEnd` advances, and the push reports success. -/
theorem Fifo.push_of_lt {α : Type} (f : Fifo α) (t : α) (h : f.numReady < f.size - 1) :
    f.push t =
      (⟨f.size, f.validStart, wrapInc f.validEnd f.size, f.buffers.set f.validEnd t,
        f.size_pos, f.start_lt, wrapInc_lt f.end_lt f.size_pos, by
          rw [List.length_set]; exact f.buffers_len⟩, true) := by
  have hfs := f.writeFreeSpace_eq
  have hsp := f.size_pos
  unfold Fifo.push
  rw [if_neg (by omega)]

/-- A push onto a queue already holding `Size - 1` blocks fails and leaves the
queue untouched (the JUCE `AbstractFifo` always keeps one slot unused). -/
theorem Fifo.push_of_full {α : Type} (f : Fifo α) (t : α) (h : f.size - 1 ≤ f.numReady) :
    f.push t = (f, false) := by
  have hfs := f.writeFreeSpace_eq
  have hns := f.numReady_lt_size
  unfold Fifo.push
  rw [if_pos (by omega)]

theorem Fifo.push_numReady {α : Type} (f : Fifo α) (t : α) (h : f.numReady < f.size - 1) :
    (f.push t).1.numReady = f.numReady + 1 := by
  have h1 := f.start_lt
  have h2 := f.end_lt
  rw [f.push_of_lt t h]
  simp only [Fifo.numReady, wrapInc] at h ⊢
  split_ifs at h ⊢ <;> omega

theorem Fifo.push_contents {α : Type} (f : Fifo α) (t : α) (h : f.numReady < f.size - 1) :
    (f.push t).1.contents = f.contents ++ [t] := by
  have h1 := f.start_lt
  have h2 := f.end_lt
  have h3 := f.numReady_lt_size
  have hm := f.push_numReady t h
  have hend := f.end_eq
  rw [f.push_of_lt t h] at hm ⊢
  apply List.ext_getElem
  · simp only [Fifo.contents_length, hm, List.length_append, List.length_singleton]
  · intro k hk1 hk2
    rw [Fifo.contents_length, hm] at hk1
    simp only [Fifo.contents, List.getElem_map, List.getElem_range, Fifo.slot,
      List.get_eq_getElem]
    rcases Nat.lt_or_ge k f.numReady with hk | hk
    · have hne : f.validEnd ≠ (f.validStart + k) % f.size := by
        rw [hend]
        intro hc
        have := @mod_window_inj f.size f.validStart f.numReady k h3 (by omega) hc
        omega
      rw [List.getElem_set_ne hne]
      rw [List.getElem_append_left (by simpa [Fifo.contents_length] using hk)]
      simp [Fifo.contents, Fifo.slot]
    · have hkeq : k = f.numReady := by omega
      subst hkeq
      simp only [← hend]
      rw [List.getElem_set_self]
      rw [List.getElem_append_right (by simp [Fifo.contents_length])]
      simp [Fifo.contents_length]

/-- A pull from an empty queue fails: the state and the caller's buffer are
both left untouched. -/
theorem Fifo.pull_of_zero {α : Type} (f : Fifo α) (t : α) (h : f.numReady = 0) :
    f.pull t = (f, t, false) := by
  unfold Fifo.pull
  rw [if_pos (by omega)]

theorem Fifo.pull_of_pos {α : Type} (f : Fifo α) (t : α) (h : 0 < f.numReady) :
    f.pull t =
      (⟨f.size, wrapInc f.validStart f.size, f.validEnd, f.buffers,
        f.size_pos, wrapInc_lt f.start_lt f.size_pos, f.end_lt, f.buffers_len⟩,
       f.buffers.get ⟨f.validStart, by rw [f.buffers_len]; exact f.start_lt⟩,
       true) := by
  unfold Fifo.pull
  rw [if_neg (by omega)]

theorem Fifo.pull_numReady {α : Type} (f : Fifo α) (t : α) (h : 0 < f.numReady) :
    (f.pull t).1.numReady = f.numReady - 1 := by
  have h1 := f.start_lt
  have h2 := f.end_lt
  rw [f.pull_of_pos t h]
  simp only [Fifo.numReady, wrapInc] at h ⊢
  split_ifs at h ⊢ <;> omega

/-- A successful pull returns the oldest queued block and leaves the rest
queued, in order. -/
theorem Fifo.pull_contents {α : Type} (f : Fifo α) (t : α) (h : 0 < f.numReady) :
    f.contents = (f.pull t).2.1 :: (f.pull t).1.contents := by
  have h1 := f.start_lt
  have hm := f.pull_numReady t h
  rw [f.pull_of_pos t h] at hm ⊢
  apply List.ext_getElem
  · simp only [Fifo.contents_length, List.length_cons, hm]
    omega
  · intro k hk1 hk2
    rw [Fifo.contents_length] at hk1
    match k with
    | 0 =>
      rw [List.getElem_cons_zero]
      simp only [Fifo.contents, List.getElem_map, List.getElem_range, Fifo.slot,
        List.get_eq_getElem]
      congr 1
      rw [Nat.add_zero, Nat.mod_eq_of_lt h1]
    | k + 1 =>
      rw [List.getElem_cons_succ]
      simp only [Fifo.contents, List.getElem_map, List.getElem_range, Fifo.slot,
        List.get_eq_getElem]
      congr 1
      rw [wrapInc_eq_mod h1, Nat.mod_add_mod]
      congr 1
      omega

theorem Fifo.pull_true_iff {α : Type} (f : Fifo α) (t : α) :
    (f.pull t).2.2 = true ↔ 0 < f.numReady := by
  constructor
  · intro h
    rcases Nat.eq_zero_or_pos f.numReady with h0 | h0
    · rw [f.pull_of_zero t h0] at h
      simp at h
    · exact h0
  · intro h0
    rw [f.pull_of_pos t h0]

theorem Fifo.pull_true_numReady_lt {α : Type} {f : Fifo α} {t : α}
    (h : (f.pull t).2.2 = true) : (f.pull t).1.numReady < f.numReady := by
  have h0 := (f.pull_true_iff t).mp h
  rw [f.pull_numReady t h0]
  omega

/-- The consumer-side drain loop from
`PFM10AudioProcessorEditor::timerCallback` (Source/PluginEditor.cpp lines
1815-1818): `while (audioProcessor.audioBufferFifo.pull (editorAudioBuffer))
{}` — keep pulling into the same buffer until a pull fails. -/
def Fifo.drain {α : Type} (f : Fifo α) (t : α) : Fifo α × α :=
  if h : (f.pull t).2.2 = true then Fifo.drain (f.pull t).1 (f.pull t).2.1
  else ((f.pull t).1, (f.pull t).2.1)
termination_by f.numReady
decreasing_by exact Fifo.pull_true_numReady_lt h

/-- Draining a non-empty queue empties it and leaves the caller's buffer
holding the last queued (most recently pushed) block. -/
theorem Fifo.drain_spec {α : Type} :
    ∀ (m : ℕ) (f : Fifo α) (t : α), f.numReady = m → 0 < m →
      (f.drain t).1.numReady = 0 ∧
        ∀ x, f.contents.getLast? = some x → (f.drain t).2 = x := by
  intro m
  induction m using Nat.strong_induction_on with
  | _ m ih =>
    intro f t hm hpos0
    have hpos : 0 < f.numReady := by omega
    have htrue : (f.pull t).2.2 = true := (f.pull_true_iff t).mpr hpos
    have hcons := f.pull_contents t hpos
    have hm2 := f.pull_numReady t hpos
    rw [Fifo.drain, dif_pos htrue]
    rcases Nat.eq_zero_or_pos (f.pull t).1.numReady with hz | hp2
    · have hnil : (f.pull t).1.contents = [] := by
        have := (f.pull t).1.contents_length
        rw [hz] at this
        exact List.eq_nil_of_length_eq_zero this
      have hzz : ¬ ((f.pull t).1.pull (f.pull t).2.1).2.2 = true := by
        rw [((f.pull t).1.pull_true_iff (f.pull t).2.1)]
        omega
      rw [Fifo.drain, dif_neg hzz]
      rw [(f.pull t).1.pull_of_zero (f.pull t).2.1 hz]
      refine ⟨hz, ?_⟩
      intro x hx
      rw [hcons, hnil] at hx
      simp at hx
      exact hx
    · obtain ⟨e1, e2⟩ := ih (f.pull t).1.numReady (by omega) (f.pull t).1
        (f.pull t).2.1 rfl hp2
      refine ⟨e1, ?_⟩
      intro x hx
      apply e2
      rw [hcons] at hx
      have hnil2 : (f.pull t).1.contents ≠ [] := by
        intro hc
        have := (f.pull t).1.contents_length
        rw [hc] at this
        simp at this
        omega
      obtain ⟨y, ys, hys⟩ := List.exists_cons_of_ne_nil hnil2
      rw [hys] at hx ⊢
      rwa [List.getLast?_cons_cons] at hx

/-- Iterated pushes: one `Fifo::push` per element of `xs` (the producer side,
called once per render callback in `PFM10AudioProcessor::processBlock`),
collecting each push's return value. -/
def Fifo.pushAll {α : Type} : Fifo α → List α → Fifo α × List Bool
  | f, [] => (f, [])
  | f, x :: rest =>
    let r := f.push x
    let rec2 := Fifo.pushAll r.1 rest
    (rec2.1, r.2 :: rec2.2)

/-- Iterated pulls into the same caller buffer, collecting the buffer value
after each pull. -/
def Fifo.pullSeq {α : Type} : Fifo α → α → ℕ → Fifo α × List α
  | f, t, 0 => (f, [])
  | f, t, n + 1 =>
    let r := f.pull t
    let rec2 := Fifo.pullSeq r.1 r.2.1 n
    (rec2.1, r.2.1 :: rec2.2)

/-- While the queue has room for them, pushes all succeed and append the
pushed blocks to the queued contents in order. -/
theorem Fifo.pushAll_spec {α : Type} :
    ∀ (xs : List α) (f : Fifo α), f.numReady + xs.length ≤ f.size - 1 →
      (f.pushAll xs).2 = List.replicate xs.length true ∧
      (f.pushAll xs).1.contents = f.contents ++ xs ∧
      (f.pushAll xs).1.numReady = f.numReady + xs.length ∧
      (f.pushAll xs).1.size = f.size := by
  intro xs
  induction xs with
  | nil =>
    intro f h
    simp [Fifo.pushAll]
  | cons x rest ih =>
    intro f h
    have hlt : f.numReady < f.size - 1 := by
      simp only [List.length_cons] at h
      omega
    have hp := f.push_of_lt x hlt
    have hnr := f.push_numReady x hlt
    have hct := f.push_contents x hlt
    have hsz : (f.push x).1.size = f.size := by rw [hp]
    obtain ⟨i1, i2, i3, i4⟩ := ih (f.push x).1 (by
      simp only [List.length_cons] at h
      omega)
    simp only [Fifo.pushAll]
    refine ⟨?_, ?_, ?_, ?_⟩
    · rw [List.length_cons, List.replicate_succ, i1]
      rw [hp]
    · rw [i2, hct, List.append_assoc]
      simp
    · rw [i3, hnr, List.length_cons]
      omega
    · rw [i4, hsz]

/-- Once the queue is full (`Size - 1` blocks queued), every further push
fails and nothing changes. -/
theorem Fifo.pushAll_of_full {α : Type} :
    ∀ (xs : List α) (f : Fifo α), f.size - 1 ≤ f.numReady →
      f.pushAll xs = (f, List.replicate xs.length false) := by
  intro xs
  induction xs with
  | nil =>
    intro f h
    simp [Fifo.pushAll]
  | cons x rest ih =>
    intro f h
    simp only [Fifo.pushAll]
    rw [f.push_of_full x h]
    simp only []
    rw [ih f h]
    simp [List.replicate_succ]

/-- Pulling `n ≤ numReady` times returns the first `n` queued blocks in
queue order. -/
theorem Fifo.pullSeq_spec {α : Type} :
    ∀ (n : ℕ) (f : Fifo α) (t : α), n ≤ f.numReady →
      (f.pullSeq t n).2 = f.contents.take n ∧
      (f.pullSeq t n).1.numReady = f.numReady - n := by
  intro n
  induction n with
  | zero =>
    intro f t h
    simp [Fifo.pullSeq]
  | succ n ih =>
    intro f t h
    have hpos : 0 < f.numReady := by omega
    have hcons := f.pull_contents t hpos
    have hnr := f.pull_numReady t hpos
    obtain ⟨i1, i2⟩ := ih (f.pull t).1 (f.pull t).2.1 (by omega)
    simp only [Fifo.pullSeq]
    constructor
    · rw [i1, hcons]
      simp
    · rw [i2, hnr]
      omega

theorem Fifo.init_numReady {α : Type} (size : ℕ) (h : 0 < size) (d : α) :
    (Fifo.init α size h d).numReady = 0 := by
  simp [Fifo.init, Fifo.numReady]

theorem Fifo.init_contents {α : Type} (size : ℕ) (h : 0 < size) (d : α) :
    (Fifo.init α size h d).contents = [] := by
  simp [Fifo.contents, Fifo.init_numReady]

/-- The push-result pattern for a size-6 queue: pushes succeed exactly while
fewer than 5 blocks are queued, then fail. -/
theorem Fifo.pushAll_results {α : Type} :
    ∀ (xs : List α) (f : Fifo α), f.size = 6 →
      (f.pushAll xs).2 =
        List.replicate (min xs.length (5 - f.numReady)) true ++
          List.replicate (xs.length - (5 - f.numReady)) false := by
  intro xs
  induction xs with
  | nil =>
    intro f hsz
    simp [Fifo.pushAll]
  | cons x rest ih =>
    intro f hsz
    rcases Nat.lt_or_ge f.numReady 5 with h5 | h5
    · have hlt : f.numReady < f.size - 1 := by omega
      have hp := f.push_of_lt x hlt
      have hnr := f.push_numReady x hlt
      have hsz2 : (f.push x).1.size = 6 := by
        rw [hp]
        exact hsz
      simp only [Fifo.pushAll]
      rw [ih (f.push x).1 hsz2, hnr]
      simp only [hp, List.length_cons]
      have h1 : min (rest.length + 1) (5 - f.numReady) =
          min rest.length (5 - (f.numReady + 1)) + 1 := by omega
      have h2 : rest.length + 1 - (5 - f.numReady) =
          rest.length - (5 - (f.numReady + 1)) := by omega
      rw [h1, h2, List.replicate_succ]
      simp
    · have hfull : f.size - 1 ≤ f.numReady := by omega
      rw [Fifo.pushAll_of_full (x :: rest) f hfull]
      have h1 : min (x :: rest).length (5 - f.numReady) = 0 := by
        simp only [List.length_cons]
        omega
      have h2 : (x :: rest).length - (5 - f.numReady) = rest.length + 1 := by
        simp only [List.length_cons]
        omega
      rw [h1, h2]
      simp

/-! ## The running averager

`Averager<T>` (Source/PluginEditor.h lines 57-76, PluginEditor.cpp lines
48-97): a fixed-length circular buffer with an incrementally maintained sum
and published average.  All instantiations use `T = float`, modelled by `ℚ`. -/

/-- State of `Averager<T>`. -/
structure Averager where
  elements : List ℚ
  writeIndex : ℕ
  sum : ℚ
  avg : ℚ
deriving DecidableEq

namespace Averager

/-- The in-class member initializers of `Averager` before the constructor
body runs: `avg { NEGATIVE_INFINITY }`, `writeIndex = 0`,
`sum { NEGATIVE_INFINITY }`, empty vector. -/
def fieldDefaults : Averager :=
  ⟨[], 0, NEGATIVE_INFINITY, NEGATIVE_INFINITY⟩

/-- Model of `Averager<T>::clear (initialValue)` (PluginEditor.cpp lines 62-74):
overwrite every element with `initialValue`, reset the cursor, set
`avg = initialValue` and `sum = initialValue * numElements`. -/
def clear (s : Averager) (initialValue : ℚ) : Averager :=
  ⟨List.replicate s.elements.length initialValue, 0,
   initialValue * (s.elements.length : ℚ), initialValue⟩

/-- Model of `Averager<T>::resize (numElements, initialValue)` (PluginEditor.cpp lines
55-60): `elements.resize (numElements); clear (initialValue);`.  The
`std::vector::resize` truncates or zero-pads; `clear` then overwrites
everything. -/
def resize (s : Averager) (numElements : ℕ) (initialValue : ℚ) : Averager :=
  clear ⟨s.elements.take numElements ++
           List.replicate (numElements - s.elements.length) 0,
         s.writeIndex, s.sum, s.avg⟩ initialValue

/-- The constructor `Averager (numElements, initialValue)` (PluginEditor.cpp
lines 49-53): default member init followed by `resize`. -/
def construct (numElements : ℕ) (initialValue : ℚ) : Averager :=
  fieldDefaults.resize numElements initialValue

/-- Model of `Averager<T>::add (t)` (PluginEditor.cpp lines 76-97):
`sum -= elements[writeIndex]; sum += t; elements[writeIndex] = t;` advance
the cursor with wraparound, publish `avg = sum / elements.size()`.  The
source indexes `elements[writeIndex]` unconditionally; the `none` result
marks the out-of-bounds (undefined-behaviour) case. -/
def add (s : Averager) (t : ℚ) : Option Averager :=
  match s.elements[s.writeIndex]? with
  | none => none
  | some old =>
    let sumTemp := s.sum - old + t
    some ⟨s.elements.set s.writeIndex t,
          if s.elements.length - 1 < s.writeIndex + 1 then 0 else s.writeIndex + 1,
          sumTemp,
          sumTemp / (s.elements.length : ℚ)⟩

/-- Feeding a whole sample stream through `add`. -/
def addAll (s : Averager) (xs : List ℚ) : Option Averager :=
  xs.foldlM add s

theorem construct_eq (n : ℕ) (fill : ℚ) :
    construct n fill = ⟨List.replicate n fill, 0, fill * (n : ℚ), fill⟩ := by
  unfold construct fieldDefaults resize clear
  simp

/-- The ideal sliding window: the last `n` values of the stream, counting the
`n` initial fill values as a prefix of the stream. -/
def window (n : ℕ) (fill : ℚ) (xs : List ℚ) : List ℚ :=
  (List.replicate n fill ++ xs).drop xs.length

theorem window_nil (n : ℕ) (fill : ℚ) : window n fill [] = List.replicate n fill := by
  simp [window]

theorem window_length (n : ℕ) (fill : ℚ) (xs : List ℚ) :
    (window n fill xs).length = n := by
  simp [window]

theorem window_append (n : ℕ) (hn : 1 ≤ n) (fill : ℚ) (xs : List ℚ) (y : ℚ) :
    window n fill (xs ++ [y]) = (window n fill xs).drop 1 ++ [y] := by
  unfold window
  rw [← List.append_assoc, List.length_append, List.length_singleton]
  rw [List.drop_append_of_le_length (by simp; omega)]
  rw [List.drop_drop]

theorem window_of_le (n : ℕ) (fill : ℚ) (xs : List ℚ) (h : n ≤ xs.length) :
    window n fill xs = xs.drop (xs.length - n) := by
  unfold window
  have key := @List.drop_append ℚ (List.replicate n fill) xs (xs.length - n)
  rw [← key]
  congr 1
  simp
  omega

theorem set_drop {α : Type} (E : List α) (j : ℕ) (y : α) :
    (E.set j y).drop (j + 1) = E.drop (j + 1) := by
  apply List.ext_getElem
  · simp
  · intro i h1 h2
    simp only [List.getElem_drop]
    rw [List.getElem_set_ne (by omega)]

theorem set_take {α : Type} (E : List α) (j : ℕ) (y : α) :
    (E.set j y).take j = E.take j := by
  apply List.ext_getElem
  · simp
  · intro i h1 h2
    simp only [List.length_take, List.length_set] at h1
    simp only [List.getElem_take]
    rw [List.getElem_set_ne (by omega)]

theorem rotate_eq_cons {α : Type} (E : List α) (j : ℕ) (hj : j < E.length) :
    E.rotate j = E.get ⟨j, hj⟩ :: (E.drop (j + 1) ++ E.take j) := by
  rw [List.rotate_eq_drop_append_take (le_of_lt hj)]
  rw [List.drop_eq_getElem_cons hj]
  rw [List.cons_append]
  simp only [List.get_eq_getElem]

theorem set_rotate {α : Type} (E : List α) (j : ℕ) (y : α) (hj : j < E.length) :
    (E.set j y).rotate j = y :: (E.drop (j + 1) ++ E.take j) := by
  rw [rotate_eq_cons (E.set j y) j (by simpa using hj)]
  rw [set_drop, set_take]
  congr 1
  simp [List.get_eq_getElem]

theorem succ_mod_eq {n : ℕ} (hn : 0 < n) (k : ℕ) :
    (if n - 1 < k % n + 1 then 0 else k % n + 1) = (k + 1) % n := by
  have hk : k % n < n := Nat.mod_lt _ hn
  rcases Nat.lt_or_ge (k % n + 1) n with h1 | h1
  · rw [if_neg (by omega)]
    conv_rhs => rw [← Nat.mod_add_mod]
    rw [Nat.mod_eq_of_lt h1]
  · have h3 : k % n + 1 = n := by omega
    rw [if_pos (by omega)]
    conv_rhs => rw [← Nat.mod_add_mod, h3, Nat.mod_self]

/-- The circular-buffer invariant of `Averager::add`: after feeding any
stream `xs` into a freshly constructed window of length `n ≥ 1`, every add
succeeded; the cursor is the stream length mod `n`; rotating the element
array by the cursor yields exactly the ideal sliding window; `sum` is the
window's sum; and `avg = sum / n`. -/
theorem addAll_inv (n : ℕ) (hn : 1 ≤ n) (fill : ℚ) :
    ∀ xs : List ℚ, ∃ s : Averager,
      addAll (construct n fill) xs = some s ∧
      s.elements.length = n ∧
      s.writeIndex = xs.length % n ∧
      s.elements.rotate s.writeIndex = window n fill xs ∧
      s.sum = (window n fill xs).sum ∧
      s.avg = s.sum / (n : ℚ) := by
  intro xs
  induction xs using List.reverseRecOn with
  | nil =>
    refine ⟨construct n fill, rfl, ?_⟩
    rw [construct_eq]
    refine ⟨by simp, by simp, ?_, ?_, ?_⟩
    · simp [window_nil]
    · simp [window_nil, List.sum_replicate, nsmul_eq_mul, mul_comm]
    · simp only []
      rw [mul_div_cancel_right₀ _ (by exact_mod_cast (by omega : n ≠ 0))]
  | append_singleton ys y ih =>
    obtain ⟨s, hs, hlen, hwi, hrot, hsum, havg⟩ := ih
    have hnpos : 0 < n := by omega
    have hwilt : s.writeIndex < s.elements.length := by
      rw [hlen, hwi]
      exact Nat.mod_lt _ hnpos
    set old := s.elements.get ⟨s.writeIndex, hwilt⟩ with hold
    have hget : s.elements[s.writeIndex]? = some old := by
      rw [List.getElem?_eq_getElem hwilt]
      simp [hold, List.get_eq_getElem]
    have hadd : add s y =
        some ⟨s.elements.set s.writeIndex y,
              if s.elements.length - 1 < s.writeIndex + 1 then 0 else s.writeIndex + 1,
              s.sum - old + y,
              (s.sum - old + y) / (s.elements.length : ℚ)⟩ := by
      unfold add
      rw [hget]
    have hstep : addAll (construct n fill) (ys ++ [y]) = add s y := by
      unfold addAll at hs ⊢
      rw [List.foldlM_append, hs]
      simp
    have hW := rotate_eq_cons s.elements s.writeIndex hwilt
    rw [hrot] at hW
    have hwi2 : (if s.elements.length - 1 < s.writeIndex + 1 then 0
        else s.writeIndex + 1) = (ys.length + 1) % n := by
      rw [hlen, hwi]
      exact succ_mod_eq hnpos ys.length
    refine ⟨_, by rw [hstep, hadd], ?_, ?_, ?_, ?_, ?_⟩
    · simp [hlen]
    · simp only [hwi2, List.length_append, List.length_singleton]
    · simp only [hwi2]
      have hmod : (ys.length + 1) % n = (s.writeIndex + 1) % n := by
        rw [hwi]
        conv_lhs => rw [← Nat.mod_add_mod]
      rw [hmod]
      have hlen2 : (s.elements.set s.writeIndex y).length = n := by simp [hlen]
      rw [← hlen2, List.rotate_mod, hlen2]
      rw [← List.rotate_rotate]
      rw [set_rotate s.elements s.writeIndex y hwilt]
      rw [window_append n hn fill ys y]
      rw [hW]
      simp [List.rotate_cons_succ]
    · simp only []
      rw [window_append n hn fill ys y, hW]
      simp only [List.get_eq_getElem] at hold
      simp [hsum, hW, hold]
      ring
    · simp only [hlen]

/-- After at least `n` samples, the sliding window is exactly the last `n`
samples of the stream and `avg` is their arithmetic mean. -/
theorem addAll_avg (n : ℕ) (hn : 1 ≤ n) (fill : ℚ) (xs : List ℚ)
    (hx : n ≤ xs.length) :
    ∃ s : Averager,
      addAll (construct n fill) xs = some s ∧
      s.avg = (xs.drop (xs.length - n)).sum / (n : ℚ) := by
  obtain ⟨s, hs, hlen, hwi, hrot, hsum, havg⟩ := addAll_inv n hn fill xs
  refine ⟨s, hs, ?_⟩
  rw [havg, hsum, window_of_le n fill xs hx]

end Averager

/-! ## The decaying peak tracker -/

/-- Value of `juce::Timer::getTimerInterval()` for a timer started with
`startTimerHz (60)`: JUCE stores `1000 / 60` milliseconds (integer
division), i.e. 16. -/
def timerIntervalMs : ℤ := 1000 / 60

/-- State of `DecayingValueHolder` (Source/PluginEditor.h lines 80-107). -/
structure DecayingValueHolder where
  holdForInf : Bool
  heldValue : ℚ
  holdTimeMs : ℤ
  peakTime : ℤ
  threshold : ℚ
  decayRatePerFrame : ℚ
deriving DecidableEq

namespace DecayingValueHolder

/-- Model of `DecayingValueHolder::updateHeldValue (input)` (PluginEditor.cpp lines
147-154): `if (input > heldValue) { peakTime = getNow(); heldValue = input; }`.
`now` stands for the wall clock value `getNow()` reads. -/
def updateHeldValue (input : ℚ) (now : ℤ) (s : DecayingValueHolder) :
    DecayingValueHolder :=
  if s.heldValue < input then { s with peakTime := now, heldValue := input } else s

/-- Model of `DecayingValueHolder::resetHeldValue()` (PluginEditor.cpp lines 156-159):
`heldValue = NEGATIVE_INFINITY`. -/
def resetHeldValue (s : DecayingValueHolder) : DecayingValueHolder :=
  { s with heldValue := NEGATIVE_INFINITY }

/-- Model of `DecayingValueHolder::setDecayRate (dbPerSec)` (PluginEditor.cpp lines
171-175): `decayRatePerFrame = (float) dbPerSec * getTimerInterval() / 1000`. -/
def setDecayRate (dbPerSec : ℤ) (s : DecayingValueHolder) : DecayingValueHolder :=
  { s with decayRatePerFrame := (dbPerSec : ℚ) * (timerIntervalMs : ℚ) / 1000 }

/-- Model of `DecayingValueHolder::setHoldTime (ms)` (PluginEditor.cpp lines 166-169). -/
def setHoldTime (ms : ℤ) (s : DecayingValueHolder) : DecayingValueHolder :=
  { s with holdTimeMs := ms }

/-- Model of `DecayingValueHolder::setHoldForInf (b)` (PluginEditor.cpp lines 177-182):
`holdForInf = b; if (! b) resetHeldValue();`. -/
def setHoldForInf (b : Bool) (s : DecayingValueHolder) : DecayingValueHolder :=
  if b = true then { s with holdForInf := b }
  else resetHeldValue { s with holdForInf := b }

/-- Model of `DecayingValueHolder::timerCallback()` (PluginEditor.cpp lines 184-199):
when not holding forever and the hold window has expired, subtract
`decayRatePerFrame` from `heldValue` and clamp the result with
`juce::jlimit (NEGATIVE_INFINITY, MAX_DECIBELS, heldValue)`. -/
def timerCallback (now : ℤ) (s : DecayingValueHolder) : DecayingValueHolder :=
  if s.holdForInf = true then s
  else if s.holdTimeMs < now - s.peakTime then
    { s with heldValue :=
        jlimit NEGATIVE_INFINITY MAX_DECIBELS (s.heldValue - s.decayRatePerFrame) }
  else s

/-- The tracker state after `k` timer ticks, the `i`-th tick reading wall
clock `times i`. -/
def tickSeq (times : ℕ → ℤ) (s : DecayingValueHolder) : ℕ → DecayingValueHolder
  | 0 => s
  | k + 1 => timerCallback (times k) (tickSeq times s k)

/-- Feeding a stream of metering samples (each with its arrival time)
through `updateHeldValue`. -/
def feed (samples : List (ℚ × ℤ)) (s : DecayingValueHolder) : DecayingValueHolder :=
  samples.foldl (fun s p => updateHeldValue p.1 p.2 s) s

/-- The pure decay step applied to `heldValue` by one expired-hold tick. -/
def decayStep (r h : ℚ) : ℚ :=
  jlimit NEGATIVE_INFINITY MAX_DECIBELS (h - r)

theorem updateHeldValue_heldValue (x : ℚ) (now : ℤ) (s : DecayingValueHolder) :
    (updateHeldValue x now s).heldValue = max s.heldValue x := by
  unfold updateHeldValue
  split_ifs with h
  · simp [max_eq_right (le_of_lt h)]
  · simp [max_eq_left (le_of_not_lt h)]

theorem updateHeldValue_of_le (x : ℚ) (now : ℤ) (s : DecayingValueHolder)
    (h : x ≤ s.heldValue) : updateHeldValue x now s = s := by
  unfold updateHeldValue
  rw [if_neg (not_lt.mpr h)]

theorem feed_heldValue (samples : List (ℚ × ℤ)) :
    ∀ s : DecayingValueHolder,
      (feed samples s).heldValue = (samples.map Prod.fst).foldl max s.heldValue := by
  induction samples with
  | nil => intro s; rfl
  | cons p rest ih =>
    intro s
    unfold feed at ih ⊢
    simp only [List.foldl_cons, List.map_cons]
    rw [ih, updateHeldValue_heldValue]

theorem le_foldl_max (l : List ℚ) : ∀ a : ℚ, a ≤ l.foldl max a := by
  induction l with
  | nil => intro a; exact le_refl a
  | cons x rest ih =>
    intro a
    exact le_trans (le_max_left a x) (ih (max a x))

theorem mem_le_foldl_max (l : List ℚ) :
    ∀ (a x : ℚ), x ∈ l → x ≤ l.foldl max a := by
  induction l with
  | nil => intro a x hx; simp at hx
  | cons y rest ih =>
    intro a x hx
    rcases List.mem_cons.mp hx with h | h
    · subst h
      exact le_trans (le_max_right a x) (le_foldl_max rest (max a x))
    · exact ih (max a y) x h

theorem foldl_max_mem (l : List ℚ) :
    ∀ a : ℚ, l.foldl max a = a ∨ l.foldl max a ∈ l := by
  induction l with
  | nil => intro a; exact Or.inl rfl
  | cons x rest ih =>
    intro a
    rcases ih (max a x) with h | h
    · rcases max_choice a x with hm | hm
      · exact Or.inl (by rw [List.foldl_cons, h, hm])
      · refine Or.inr ?_
        rw [List.foldl_cons, h, hm]
        exact List.mem_cons_self x rest
    · exact Or.inr (List.mem_cons_of_mem x h)

theorem decayStep_ge_floor (r h : ℚ) : NEGATIVE_INFINITY ≤ decayStep r h := by
  unfold decayStep jlimit NEGATIVE_INFINITY MAX_DECIBELS
  split_ifs <;> linarith

theorem decayStep_floor_fixed {r : ℚ} (hr : 0 < r) {h : ℚ}
    (hh : h ≤ NEGATIVE_INFINITY) : decayStep r h = NEGATIVE_INFINITY := by
  unfold NEGATIVE_INFINITY at hh
  unfold decayStep jlimit NEGATIVE_INFINITY
  rw [if_pos (by linarith)]

theorem decayStep_le (r h : ℚ) :
    decayStep r h ≤ max NEGATIVE_INFINITY (h - r) := by
  unfold decayStep jlimit NEGATIVE_INFINITY MAX_DECIBELS at *
  split_ifs with h1 h2
  · exact le_max_left _ _
  · exact le_trans (le_of_lt h2) (le_max_right _ _)
  · exact le_max_right _ _

theorem decayStep_iterate_le {r : ℚ} (hr : 0 < r) (h0 : ℚ) :
    ∀ k : ℕ, (decayStep r)^[k] h0 ≤ max NEGATIVE_INFINITY (h0 - k * r) := by
  intro k
  induction k with
  | zero => simp
  | succ k ih =>
    rw [Function.iterate_succ_apply']
    refine le_trans (decayStep_le r _) (max_le (le_max_left _ _) ?_)
    have h1 : (decayStep r)^[k] h0 - r ≤ max NEGATIVE_INFINITY (h0 - k * r) - r := by
      linarith
    refine le_trans h1 ?_
    rcases max_choice NEGATIVE_INFINITY (h0 - k * r) with hm | hm
    · rw [hm]
      refine le_trans ?_ (le_max_left _ _)
      linarith
    · rw [hm]
      refine le_trans ?_ (le_max_right _ _)
      push_cast
      linarith

theorem decayStep_iterate_ge {r : ℚ} (hr : 0 < r) {h0 : ℚ}
    (h : NEGATIVE_INFINITY ≤ h0) :
    ∀ k : ℕ, NEGATIVE_INFINITY ≤ (decayStep r)^[k] h0 := by
  intro k
  cases k with
  | zero => exact h
  | succ k =>
    rw [Function.iterate_succ_apply']
    exact decayStep_ge_floor r _

/-- With a strictly positive decay rate, the iterated decay step reaches the
floor sentinel after finitely many ticks and stays there. -/
theorem decayStep_reaches_floor {r : ℚ} (hr : 0 < r) {h0 : ℚ}
    (h : NEGATIVE_INFINITY ≤ h0) :
    ∃ K : ℕ, ∀ k : ℕ, K ≤ k → (decayStep r)^[k] h0 = NEGATIVE_INFINITY := by
  obtain ⟨K, hK⟩ := exists_nat_ge ((h0 - NEGATIVE_INFINITY) / r)
  have hKr : h0 - K * r ≤ NEGATIVE_INFINITY := by
    rw [div_le_iff₀ hr] at hK
    linarith
  have hfix : (decayStep r)^[K] h0 = NEGATIVE_INFINITY := by
    refine le_antisymm ?_ (decayStep_iterate_ge hr h K)
    refine le_trans (decayStep_iterate_le hr h0 K) (max_le (le_refl _) hKr)
  refine ⟨K, ?_⟩
  intro k hk
  induction k, hk using Nat.le_induction with
  | base => exact hfix
  | succ k hk ih =>
    rw [Function.iterate_succ_apply', ih]
    exact decayStep_floor_fixed hr (le_refl _)

/-- When forever-hold is off, the hold time is zero and every tick happens
after the recorded peak time, the tick sequence leaves every field except
`heldValue` unchanged and applies the pure decay step to `heldValue`. -/
theorem tickSeq_eq (times : ℕ → ℤ) (s : DecayingValueHolder)
    (hinf : s.holdForInf = false) (hhold : s.holdTimeMs = 0)
    (htimes : ∀ k, s.peakTime < times k) :
    ∀ k : ℕ, tickSeq times s k =
      { s with heldValue := (decayStep s.decayRatePerFrame)^[k] s.heldValue } := by
  intro k
  induction k with
  | zero => rfl
  | succ k ih =>
    unfold tickSeq
    rw [ih]
    unfold timerCallback
    rw [if_neg (by simp [hinf]), if_pos (by simp [hhold]; exact htimes k)]
    rw [Function.iterate_succ_apply']
    rfl

end DecayingValueHolder

/-- One observable event on a `DecayingValueHolder`: a timer tick or a new
metering sample delivered through `updateHeldValue`. -/
inductive DVHEvent where
  | timerTick (now : ℤ)
  | newSample (x : ℚ) (now : ℤ)
deriving DecidableEq

namespace DVHEvent

/-- Apply one event to the tracker. -/
def apply : DVHEvent → DecayingValueHolder → DecayingValueHolder
  | timerTick now, s => DecayingValueHolder.timerCallback now s
  | newSample x now, s => DecayingValueHolder.updateHeldValue x now s

/-- Apply a sequence of events in order. -/
def applyAll (es : List DVHEvent) (s : DecayingValueHolder) : DecayingValueHolder :=
  es.foldl (fun s e => apply e s) s

theorem apply_of_inf (e : DVHEvent) (s : DecayingValueHolder)
    (h : s.holdForInf = true) :
    s.heldValue ≤ (apply e s).heldValue ∧ (apply e s).holdForInf = true := by
  cases e with
  | timerTick now =>
    simp only [apply]
    unfold DecayingValueHolder.timerCallback
    rw [if_pos h]
    exact ⟨le_refl _, h⟩
  | newSample x now =>
    simp only [apply]
    unfold DecayingValueHolder.updateHeldValue
    split_ifs with hx
    · exact ⟨le_of_lt hx, h⟩
    · exact ⟨le_refl _, h⟩

theorem applyAll_of_inf (es : List DVHEvent) :
    ∀ s : DecayingValueHolder, s.holdForInf = true →
      s.heldValue ≤ (applyAll es s).heldValue ∧
        (applyAll es s).holdForInf = true := by
  induction es with
  | nil => intro s h; exact ⟨le_refl _, h⟩
  | cons e rest ih =>
    intro s h
    obtain ⟨h1, h2⟩ := apply_of_inf e s h
    obtain ⟨h3, h4⟩ := ih (apply e s) h2
    exact ⟨le_trans h1 h3, h4⟩

end DVHEvent

/-! ## The text-meter value holder -/

/-- State of `ValueHolder` (Source/PluginEditor.h lines 111-140). -/
structure ValueHolder where
  holdEnabled : Bool
  holdForInf : Bool
  durationToHoldForMs : ℤ
  threshold : ℚ
  currentValue : ℚ
  heldValue : ℚ
  timeOfPeak : ℤ
  isOverThreshold : Bool
deriving DecidableEq

namespace ValueHolder

/-- Model of `ValueHolder::timerCallback()` (PluginEditor.cpp lines 255-265): when not
holding forever and the hold window has expired, `heldValue = currentValue`
and the over-threshold flag is refreshed. -/
def timerCallback (now : ℤ) (s : ValueHolder) : ValueHolder :=
  if s.holdForInf = false ∧ s.durationToHoldForMs < now - s.timeOfPeak then
    { s with heldValue := s.currentValue,
             isOverThreshold := decide (s.threshold < s.currentValue) }
  else s

/-- Model of `ValueHolder::updateHeldValue (v)` (PluginEditor.cpp lines 283-297):
always record `currentValue = v`; when `v >= heldValue` also take the peak
and return `true`. -/
def updateHeldValue (v : ℚ) (now : ℤ) (s : ValueHolder) : ValueHolder × Bool :=
  if s.heldValue ≤ v then
    ({ s with currentValue := v, timeOfPeak := now, heldValue := v,
              isOverThreshold := decide (s.threshold < v) }, true)
  else ({ s with currentValue := v }, false)

/-- Model of `ValueHolder::setThreshold (th)` (PluginEditor.cpp lines 267-271). -/
def setThreshold (th : ℚ) (s : ValueHolder) : ValueHolder :=
  { s with threshold := th, isOverThreshold := decide (th < s.heldValue) }

/-- Model of `ValueHolder::resetHeldValue()` (PluginEditor.cpp lines 299-302). -/
def resetHeldValue (s : ValueHolder) : ValueHolder :=
  { s with heldValue := NEGATIVE_INFINITY }

/-- Model of `ValueHolder::setHoldDuration (ms)` (PluginEditor.h line 118). -/
def setHoldDuration (ms : ℤ) (s : ValueHolder) : ValueHolder :=
  { s with durationToHoldForMs := ms }

/-- Model of `ValueHolder::setHoldEnabled (b)` (PluginEditor.cpp lines 273-278). -/
def setHoldEnabled (b : Bool) (s : ValueHolder) : ValueHolder :=
  if b = true then { s with holdEnabled := b }
  else setHoldDuration 0 { s with holdEnabled := b }

end ValueHolder

/-! ## IEEE-style value model for the NaN/Inf claims

The claims about invalid numeric input are about float special values, so
for them machine floats are modelled by a four-way value type that keeps
finite values exact and gives NaN/Inf the IEEE comparison and arithmetic
behaviour the compiled code exhibits. -/

/-- A machine float, as far as the NaN/Inf sanitization claims need it. -/
inductive FVal where
  | nan
  | inf
  | ninf
  | fin (x : ℚ)
deriving DecidableEq

namespace FVal

/-- IEEE `<`: every comparison involving NaN is false. -/
def flt : FVal → FVal → Bool
  | nan, _ => false
  | _, nan => false
  | inf, inf => false
  | _, inf => true
  | inf, _ => false
  | ninf, ninf => false
  | ninf, _ => true
  | _, ninf => false
  | fin x, fin y => decide (x < y)

/-- IEEE `>`. -/
def fgt (a b : FVal) : Bool := flt b a

/-- IEEE `==`: false whenever NaN is involved. -/
def feq : FVal → FVal → Bool
  | inf, inf => true
  | ninf, ninf => true
  | fin x, fin y => decide (x = y)
  | _, _ => false

/-- IEEE `>=`. -/
def fge (a b : FVal) : Bool := feq a b || flt b a

/-- Model of `std::isnan`. -/
def isnanF : FVal → Bool
  | nan => true
  | _ => false

/-- Model of `std::isinf` (true for both infinities). -/
def isinfF : FVal → Bool
  | inf => true
  | ninf => true
  | _ => false

/-- IEEE negation. -/
def fneg : FVal → FVal
  | nan => nan
  | inf => ninf
  | ninf => inf
  | fin x => fin (-x)

/-- IEEE addition: NaN propagates; `inf + (-inf)` is NaN. -/
def fadd : FVal → FVal → FVal
  | nan, _ => nan
  | _, nan => nan
  | inf, ninf => nan
  | ninf, inf => nan
  | inf, _ => inf
  | _, inf => inf
  | ninf, _ => ninf
  | _, ninf => ninf
  | fin x, fin y => fin (x + y)

/-- IEEE subtraction. -/
def fsub (a b : FVal) : FVal := fadd a (fneg b)

/-- IEEE multiplication: NaN propagates; `inf * 0` is NaN. -/
def fmul : FVal → FVal → FVal
  | nan, _ => nan
  | _, nan => nan
  | inf, inf => inf
  | inf, ninf => ninf
  | ninf, inf => ninf
  | ninf, ninf => inf
  | inf, fin y => if 0 < y then inf else if y < 0 then ninf else nan
  | fin x, inf => if 0 < x then inf else if x < 0 then ninf else nan
  | ninf, fin y => if 0 < y then ninf else if y < 0 then inf else nan
  | fin x, ninf => if 0 < x then ninf else if x < 0 then inf else nan
  | fin x, fin y => fin (x * y)

/-- IEEE division (signed zeros ignored; only the cases the development
evaluates matter). -/
def fdiv : FVal → FVal → FVal
  | nan, _ => nan
  | _, nan => nan
  | inf, inf => nan
  | inf, ninf => nan
  | ninf, inf => nan
  | ninf, ninf => nan
  | inf, fin y => if 0 < y then inf else if y < 0 then ninf else nan
  | ninf, fin y => if 0 < y then ninf else if y < 0 then inf else nan
  | fin x, inf => fin 0
  | fin x, ninf => fin 0
  | fin x, fin y =>
    if y = 0 then (if x = 0 then nan else if 0 < x then inf else ninf)
    else fin (x / y)

/-- Model of `std::log10` on the special values; on positive finite input the exact
logarithm is abstracted by the parameter `l10`. -/
def log10F (l10 : ℚ → ℚ) : FVal → FVal
  | inf => inf
  | nan => nan
  | ninf => nan
  | fin x => if 0 < x then fin (l10 x) else if x = 0 then ninf else nan

/-- Model of `juce::jmax (a, b)` = `a < b ? b : a` under IEEE comparison. -/
def jmaxF (a b : FVal) : FVal := if flt a b then b else a

/-- Model of `juce::Decibels::gainToDecibels (gain, minusInfinityDb)` as called with
`minusInfinityDb = NEGATIVE_INFINITY` by the editor:
`gain > Type() ? jmax (minusInfinityDb, std::log10 (gain) * 20) :
minusInfinityDb`. -/
def gainToDecibels (l10 : ℚ → ℚ) (gain : FVal) : FVal :=
  if fgt gain (fin 0) then jmaxF (fin NEGATIVE_INFINITY) (fmul (log10F l10 gain) (fin 20))
  else fin NEGATIVE_INFINITY

/-- The sanitization branch of `CorrelationMeter::update` (PluginEditor.cpp
lines 1390-1399): the value actually handed to `slowAverager.add` /
`peakAverager.add` — `0` when the correlation result `c` is NaN or Inf,
otherwise `c` itself. -/
def correlationSample (c : FVal) : FVal :=
  if isnanF c || isinfF c then fin 0 else c

/-- The `heldValue` update of `DecayingValueHolder::updateHeldValue` under
float comparison semantics: `if (input > heldValue) heldValue = input`. -/
def dvhHeldAfterUpdate (input held : FVal) : FVal :=
  if fgt input held then input else held

/-- The `heldValue` update of `ValueHolder::updateHeldValue` under float
comparison semantics: `if (v >= heldValue) heldValue = v`. -/
def vhHeldAfterUpdate (v held : FVal) : FVal :=
  if fge v held then v else held

end FVal

/-- State of `Averager<float>` under float semantics (for the NaN/Inf claims). -/
structure AveragerF where
  elements : List FVal
  writeIndex : ℕ
  sum : FVal
  avg : FVal
deriving DecidableEq

namespace AveragerF

/-- Model of `Averager<T>::add` with IEEE arithmetic: same structure as
`Averager.add`, but `sum -= elements[writeIndex]; sum += t` and
`avg = sum / size` follow float rules. -/
def add (s : AveragerF) (t : FVal) : Option AveragerF :=
  match s.elements[s.writeIndex]? with
  | none => none
  | some old =>
    let sumTemp := FVal.fadd (FVal.fsub s.sum old) t
    some ⟨s.elements.set s.writeIndex t,
          if s.elements.length - 1 < s.writeIndex + 1 then 0 else s.writeIndex + 1,
          sumTemp,
          FVal.fdiv sumTemp (FVal.fin (s.elements.length : ℚ))⟩

/-- Feeding a stream of float samples through `add`. -/
def addAll (s : AveragerF) (xs : List FVal) : Option AveragerF :=
  xs.foldlM add s

end AveragerF

/-! ## Claim theorems -/

/-- Positivity of the size bound of `audioBufferFifo`
(`Fifo<juce::AudioBuffer<float>, 6>`, PluginProcessor.h line 118). -/
def six_pos : 0 < 6 := by norm_num

/-- C1, counterexample: the claim reads `Capacity` as the compile-time
`Size = 6`, so the first six pushes from empty should all return true; in
fact the sixth push already fails — `juce::AbstractFifo` always keeps one
slot unused, so a `Fifo<T, 6>` holds at most 5 blocks. -/
theorem c1_counterexample :
    ((Fifo.init ℕ 6 six_pos 0).pushAll [1, 2, 3, 4, 5, 6]).2 ≠
      List.replicate 6 true ∧
    ((Fifo.init ℕ 6 six_pos 0).pushAll [1, 2, 3, 4, 5, 6]).2 =
      [true, true, true, true, true, false] := by
  constructor
  · decide
  · decide

/-- C1 (amended): from an empty size-6 queue, pushes with no intervening
pulls return true for exactly the first `min (length, 5)` pushes — the
effective capacity is `Size - 1 = 5` — and false thereafter; a push onto the
full queue (5 queued) returns false; after one successful pull from the full
queue the next push returns true again. -/
theorem c1_amended_theorem {α : Type} (d t buf : α) (xs : List α) (f : Fifo α)
    (hsz : f.size = 6) (hfull : f.numReady = 5) :
    ((Fifo.init α 6 six_pos d).pushAll xs).2 =
      List.replicate (min xs.length 5) true ++
        List.replicate (xs.length - 5) false ∧
    (f.push t).2 = false ∧
    ((f.pull buf).1.push t).2 = true := by
  refine ⟨?_, ?_, ?_⟩
  · have h := Fifo.pushAll_results xs (Fifo.init α 6 six_pos d) rfl
    rwa [Fifo.init_numReady] at h
  · rw [f.push_of_full t (by omega)]
  · have hpos : 0 < f.numReady := by omega
    have hnr := f.pull_numReady buf hpos
    have hsz2 : (f.pull buf).1.size = 6 := by
      rw [f.pull_of_pos buf hpos]
      exact hsz
    rw [(f.pull buf).1.push_of_lt t (by rw [hnr, hfull, hsz2]; norm_num)]

/-- C1, witness for the amended theorem: three pushes into the empty queue
all succeed; a concrete full queue rejects a push and accepts one again
after one pull. -/
theorem c1_amended_witness :
    (((Fifo.init ℕ 6 six_pos 0).pushAll [7, 8, 9]).2 =
      List.replicate (min 3 5) true ++ List.replicate (3 - 5) false) ∧
    ((((Fifo.init ℕ 6 six_pos 0).pushAll [1, 2, 3, 4, 5]).1).push 9).2 = false ∧
    (((((Fifo.init ℕ 6 six_pos 0).pushAll [1, 2, 3, 4, 5]).1).pull 0).1.push 9).2 =
      true :=
  c1_amended_theorem 0 9 0 [7, 8, 9]
    ((Fifo.init ℕ 6 six_pos 0).pushAll [1, 2, 3, 4, 5]).1 (by decide) (by decide)

/-- C2: for a window of length `n ≥ 1` and any sample stream of length at
least `n` (in particular, more than `n`), every `add` succeeds and `getAvg()`
returns the arithmetic mean of exactly the last `n` samples, independent of
the fill value and of all earlier samples; in particular, window 3 with
stream 1,2,3 gives average 2 after the third add, and stream 1,2,3,4 gives
average 3 after the fourth. -/
theorem c2_theorem (n : ℕ) (fill : ℚ) (xs : List ℚ)
    (hn : 1 ≤ n) (hx : n ≤ xs.length) :
    (∃ s : Averager,
      Averager.addAll (Averager.construct n fill) xs = some s ∧
      s.avg = (xs.drop (xs.length - n)).sum / (n : ℚ)) ∧
    (Averager.addAll (Averager.construct 3 0) [1, 2, 3]).map Averager.avg =
      some 2 ∧
    (Averager.addAll (Averager.construct 3 0) [1, 2, 3, 4]).map Averager.avg =
      some 3 := by
  refine ⟨Averager.addAll_avg n hn fill xs hx, ?_, ?_⟩
  · norm_num [Averager.addAll, Averager.add, Averager.construct, Averager.resize,
      Averager.clear, Averager.fieldDefaults, List.foldlM_cons, List.foldlM_nil,
      List.replicate]
  · norm_num [Averager.addAll, Averager.add, Averager.construct, Averager.resize,
      Averager.clear, Averager.fieldDefaults, List.foldlM_cons, List.foldlM_nil,
      List.replicate]

/-- C2, witness: window 3, fill value `-66`, stream 1,2,3,4 — more than 3
samples — and the mean-of-last-3 conclusion. -/
theorem c2_witness :
    ((1 : ℕ) ≤ 3 ∧ 3 ≤ ([1, 2, 3, 4] : List ℚ).length) ∧
    ((∃ s : Averager,
        Averager.addAll (Averager.construct 3 (-66)) [1, 2, 3, 4] = some s ∧
        s.avg = (([1, 2, 3, 4] : List ℚ).drop
            (([1, 2, 3, 4] : List ℚ).length - 3)).sum / ((3 : ℕ) : ℚ)) ∧
      (Averager.addAll (Averager.construct 3 0) [1, 2, 3]).map Averager.avg =
        some 2 ∧
      (Averager.addAll (Averager.construct 3 0) [1, 2, 3, 4]).map Averager.avg =
        some 3) :=
  ⟨⟨by norm_num, by norm_num⟩,
   c2_theorem 3 (-66) [1, 2, 3, 4] (by norm_num) (by norm_num)⟩

/-- C3: push any nonempty batch of at most 5 blocks into the empty size-6
queue, so that `getNumAvailableForReading () > 0` holds; the drain loop
(`while pull succeeds`) then empties the queue and leaves the caller's
buffer equal to the most recently pushed block of the batch — every earlier
block was overwritten before the magnitude/dB computation reads the
buffer. -/
theorem c3_theorem {α : Type} (d t : α) (xs : List α) (hne : xs ≠ [])
    (hlen : xs.length ≤ 5) :
    0 < ((Fifo.init α 6 six_pos d).pushAll xs).1.numReady ∧
    ((((Fifo.init α 6 six_pos d).pushAll xs).1).drain t).1.numReady = 0 ∧
    ((((Fifo.init α 6 six_pos d).pushAll xs).1).drain t).2 = xs.getLast hne := by
  obtain ⟨r1, r2, r3, r4⟩ := Fifo.pushAll_spec xs (Fifo.init α 6 six_pos d) (by
    rw [Fifo.init_numReady]
    show 0 + xs.length ≤ 6 - 1
    omega)
  have hlpos : 0 < xs.length := List.length_pos.mpr hne
  have hct : ((Fifo.init α 6 six_pos d).pushAll xs).1.contents = xs := by
    rw [r2, Fifo.init_contents]
    simp
  have hnr : ((Fifo.init α 6 six_pos d).pushAll xs).1.numReady = xs.length := by
    rw [r3, Fifo.init_numReady]
    omega
  obtain ⟨e1, e2⟩ := Fifo.drain_spec xs.length
    ((Fifo.init α 6 six_pos d).pushAll xs).1 t hnr hlpos
  refine ⟨by omega, e1, ?_⟩
  apply e2
  rw [hct]
  exact List.getLast?_eq_getLast xs hne

/-- C3, witness: batch 4, 5, 6 drained from the queue leaves buffer 6. -/
theorem c3_witness :
    0 < ((Fifo.init ℕ 6 six_pos 0).pushAll [4, 5, 6]).1.numReady ∧
    ((((Fifo.init ℕ 6 six_pos 0).pushAll [4, 5, 6]).1).drain 0).1.numReady = 0 ∧
    ((((Fifo.init ℕ 6 six_pos 0).pushAll [4, 5, 6]).1).drain 0).2 =
      ([4, 5, 6] : List ℕ).getLast (by decide) :=
  c3_theorem 0 0 [4, 5, 6] (by decide) (by decide)

/-- C4: with forever-hold off, hold duration 0, a positive decay rate set via
`setDecayRate`, a held value at or above the floor, and every tick occurring
after the recorded peak time: each tick replaces `heldValue` by
`jlimit (NEGATIVE_INFINITY, MAX_DECIBELS, heldValue - decayRatePerFrame)`;
the held value never goes below the floor sentinel; and after sufficiently
many ticks it equals `NEGATIVE_INFINITY` and remains there. -/
theorem c4_theorem (s0 : DecayingValueHolder) (dbPerSec : ℤ) (times : ℕ → ℤ)
    (hdb : 0 < dbPerSec) (hinf : s0.holdForInf = false)
    (hhold : s0.holdTimeMs = 0)
    (hfloor : NEGATIVE_INFINITY ≤ s0.heldValue)
    (hrate : s0.decayRatePerFrame =
      (DecayingValueHolder.setDecayRate dbPerSec s0).decayRatePerFrame)
    (htimes : ∀ k, s0.peakTime < times k) :
    (∀ k, (DecayingValueHolder.tickSeq times s0 (k + 1)).heldValue =
        jlimit NEGATIVE_INFINITY MAX_DECIBELS
          ((DecayingValueHolder.tickSeq times s0 k).heldValue -
            s0.decayRatePerFrame)) ∧
    (∀ k, NEGATIVE_INFINITY ≤
        (DecayingValueHolder.tickSeq times s0 k).heldValue) ∧
    (∃ K, ∀ k, K ≤ k →
        (DecayingValueHolder.tickSeq times s0 k).heldValue =
          NEGATIVE_INFINITY) := by
  have hr : 0 < s0.decayRatePerFrame := by
    rw [hrate]
    unfold DecayingValueHolder.setDecayRate timerIntervalMs
    have h1 : (0 : ℚ) < (dbPerSec : ℚ) := by exact_mod_cast hdb
    have h2 : (1000 / 60 : ℤ) = 16 := by decide
    rw [h2]
    push_cast
    positivity
  have hticks := DecayingValueHolder.tickSeq_eq times s0 hinf hhold htimes
  refine ⟨?_, ?_, ?_⟩
  · intro k
    rw [hticks (k + 1), hticks k]
    show (DecayingValueHolder.decayStep s0.decayRatePerFrame)^[k + 1]
        s0.heldValue = _
    rw [Function.iterate_succ_apply']
    rfl
  · intro k
    rw [hticks k]
    exact DecayingValueHolder.decayStep_iterate_ge hr hfloor k
  · obtain ⟨K, hK⟩ := DecayingValueHolder.decayStep_reaches_floor hr hfloor
    refine ⟨K, ?_⟩
    intro k hk
    rw [hticks k]
    exact hK k hk

/-- A concrete tracker state for the C4 witness: forever-hold off, held value
0 dB, hold time 0, peak recorded at time 0, decay rate as `setDecayRate (3)`
computes it. -/
def c4state : DecayingValueHolder :=
  ⟨false, 0, 0, 0, NEGATIVE_INFINITY, (3 : ℚ) * (timerIntervalMs : ℚ) / 1000⟩

/-- C4, witness: the decay behaviour at the concrete state `c4state` with
ticks at time 1. -/
theorem c4_witness :
    (∀ k, (DecayingValueHolder.tickSeq (fun _ => 1) c4state (k + 1)).heldValue =
        jlimit NEGATIVE_INFINITY MAX_DECIBELS
          ((DecayingValueHolder.tickSeq (fun _ => 1) c4state k).heldValue -
            c4state.decayRatePerFrame)) ∧
    (∀ k, NEGATIVE_INFINITY ≤
        (DecayingValueHolder.tickSeq (fun _ => 1) c4state k).heldValue) ∧
    (∃ K, ∀ k, K ≤ k →
        (DecayingValueHolder.tickSeq (fun _ => 1) c4state k).heldValue =
          NEGATIVE_INFINITY) :=
  c4_theorem c4state 3 (fun _ => 1) (by norm_num) rfl rfl
    (by norm_num [c4state, NEGATIVE_INFINITY]) rfl
    (by intro k; norm_num [c4state])

/-- C5, counterexample: an Inf sample magnitude reaching the dB computation
is not sanitized — `gainToDecibels` maps +Inf to +Inf, the ValueHolder's
`v >= heldValue` comparison accepts it and stores an infinite held value, and
once such a +Inf enters an `Averager` its later eviction turns the running
sum into NaN (`inf - inf`), which then persists. -/
theorem c5_counterexample :
    FVal.gainToDecibels (fun _ => 0) FVal.inf = FVal.inf ∧
    FVal.vhHeldAfterUpdate (FVal.gainToDecibels (fun _ => 0) FVal.inf)
      (FVal.fin NEGATIVE_INFINITY) = FVal.inf ∧
    FVal.isinfF (FVal.vhHeldAfterUpdate (FVal.gainToDecibels (fun _ => 0) FVal.inf)
      (FVal.fin NEGATIVE_INFINITY)) = true ∧
    (AveragerF.addAll ⟨[FVal.fin 0, FVal.fin 0], 0, FVal.fin 0, FVal.fin 0⟩
        [FVal.inf, FVal.fin 0, FVal.fin 0]).map (fun s => FVal.isnanF s.sum) =
      some true := by
  refine ⟨rfl, rfl, rfl, ?_⟩
  norm_num [AveragerF.addAll, AveragerF.add, FVal.fadd, FVal.fsub, FVal.fneg,
    FVal.fdiv, FVal.isnanF, List.foldlM_cons, List.foldlM_nil]

/-- C5 (amended): the correlation path replaces every NaN or Inf correlation
value by 0 before it reaches the averagers, and on the peak-dB path a NaN
magnitude is mapped to the floor sentinel (`gainToDecibels` returns the
floor for any value not greater than zero, NaN included); but a +Inf
magnitude is mapped to +Inf and reaches the trackers unsanitized. -/
theorem c5_amended_theorem :
    (∀ c : FVal, FVal.isnanF (FVal.correlationSample c) = false ∧
      FVal.isinfF (FVal.correlationSample c) = false) ∧
    (∀ l10 : ℚ → ℚ,
      FVal.gainToDecibels l10 FVal.nan = FVal.fin NEGATIVE_INFINITY) ∧
    (∀ l10 : ℚ → ℚ, FVal.gainToDecibels l10 FVal.inf = FVal.inf) := by
  refine ⟨?_, fun _ => rfl, fun _ => rfl⟩
  intro c
  cases c <;> simp [FVal.correlationSample, FVal.isnanF, FVal.isinfF]

/-- C6: for every batch of at most `capacity` pairwise distinguishable
blocks whose pushes from the empty queue all succeed, pulling as many times
returns exactly the pushed blocks in push order. -/
theorem c6_theorem {α : Type} (d t : α) (xs : List α) (hcap : xs.length ≤ 6)
    (hsucc : ((Fifo.init α 6 six_pos d).pushAll xs).2 =
      List.replicate xs.length true) :
    ((((Fifo.init α 6 six_pos d).pushAll xs).1).pullSeq t xs.length).2 = xs := by
  rcases Nat.lt_or_ge xs.length 6 with h6 | h6
  · obtain ⟨r1, r2, r3, r4⟩ := Fifo.pushAll_spec xs (Fifo.init α 6 six_pos d) (by
      rw [Fifo.init_numReady]
      show 0 + xs.length ≤ 6 - 1
      omega)
    have hct : ((Fifo.init α 6 six_pos d).pushAll xs).1.contents = xs := by
      rw [r2, Fifo.init_contents]
      simp
    have hnr : ((Fifo.init α 6 six_pos d).pushAll xs).1.numReady = xs.length := by
      rw [r3, Fifo.init_numReady]
      omega
    obtain ⟨p1, p2⟩ := Fifo.pullSeq_spec xs.length
      ((Fifo.init α 6 six_pos d).pushAll xs).1 t (by rw [hnr])
    rw [p1, hct, List.take_length]
  · have hxs : xs.length = 6 := by omega
    exfalso
    have hres := Fifo.pushAll_results xs (Fifo.init α 6 six_pos d) rfl
    rw [Fifo.init_numReady] at hres
    rw [hres, hxs] at hsucc
    exact absurd hsucc (by decide)

/-- C6, witness: pushing 10, 20, 30 and pulling three times returns
10, 20, 30. -/
theorem c6_witness :
    ((((Fifo.init ℕ 6 six_pos 0).pushAll [10, 20, 30]).1).pullSeq 0
      ([10, 20, 30] : List ℕ).length).2 = [10, 20, 30] :=
  c6_theorem 0 0 [10, 20, 30] (by decide) (by decide)

/-- C7: `updateHeldValue` with an input not above the current held value
leaves the state unchanged, and nothing fed through `updateHeldValue` ever
lowers `heldValue`; feeding a strictly increasing stream of samples (all at
or above the floor) into a freshly reset tracker, with no decay ticks in
between, leaves `heldValue` equal to the maximum sample seen. -/
theorem c7_theorem (s s0 : DecayingValueHolder) (x : ℚ) (now : ℤ)
    (samples : List (ℚ × ℤ)) (hx : x < s.heldValue)
    (hreset : s0.heldValue = NEGATIVE_INFINITY) (hne : samples ≠ [])
    (hfloor : ∀ p ∈ samples, NEGATIVE_INFINITY ≤ p.1)
    (hchain : List.Chain' (fun a b => a < b) (samples.map Prod.fst)) :
    DecayingValueHolder.updateHeldValue x now s = s ∧
    (∀ y : ℚ, s.heldValue ≤
      (DecayingValueHolder.updateHeldValue y now s).heldValue) ∧
    (DecayingValueHolder.feed samples s0).heldValue ∈ samples.map Prod.fst ∧
    (∀ v ∈ samples.map Prod.fst,
      v ≤ (DecayingValueHolder.feed samples s0).heldValue) := by
  refine ⟨DecayingValueHolder.updateHeldValue_of_le x now s (le_of_lt hx),
    ?_, ?_, ?_⟩
  · intro y
    rw [DecayingValueHolder.updateHeldValue_heldValue]
    exact le_max_left _ _
  · rw [DecayingValueHolder.feed_heldValue, hreset]
    rcases DecayingValueHolder.foldl_max_mem (samples.map Prod.fst)
      NEGATIVE_INFINITY with hcase | hcase
    · rw [hcase]
      obtain ⟨p, hp⟩ := List.exists_mem_of_ne_nil samples hne
      have h1 : p.1 ≤ NEGATIVE_INFINITY := by
        have h2 := DecayingValueHolder.mem_le_foldl_max (samples.map Prod.fst)
          NEGATIVE_INFINITY p.1 (List.mem_map_of_mem Prod.fst hp)
        rwa [hcase] at h2
      have h3 : p.1 = NEGATIVE_INFINITY := le_antisymm h1 (hfloor p hp)
      rw [← h3]
      exact List.mem_map_of_mem Prod.fst hp
    · exact hcase
  · intro v hv
    rw [DecayingValueHolder.feed_heldValue, hreset]
    exact DecayingValueHolder.mem_le_foldl_max _ _ v hv

/-- A concrete tracker state for the C7 witness: held value 1 dB. -/
def c7state : DecayingValueHolder := ⟨false, 1, 0, 0, NEGATIVE_INFINITY, 1⟩

/-- A freshly reset tracker state for the C7 witness. -/
def c7reset : DecayingValueHolder := ⟨false, NEGATIVE_INFINITY, 0, 0,
  NEGATIVE_INFINITY, 1⟩

/-- C7, witness: input 0 below held value 1 leaves the state unchanged;
feeding the strictly increasing stream -10, 0, 5 into a reset tracker holds
its maximum. -/
theorem c7_witness :
    DecayingValueHolder.updateHeldValue 0 3 c7state = c7state ∧
    (∀ y : ℚ, c7state.heldValue ≤
      (DecayingValueHolder.updateHeldValue y 3 c7state).heldValue) ∧
    (DecayingValueHolder.feed [(-10, 1), (0, 2), (5, 3)] c7reset).heldValue ∈
      ([(-10, 1), (0, 2), (5, 3)] : List (ℚ × ℤ)).map Prod.fst ∧
    (∀ v ∈ ([(-10, 1), (0, 2), (5, 3)] : List (ℚ × ℤ)).map Prod.fst,
      v ≤ (DecayingValueHolder.feed [(-10, 1), (0, 2), (5, 3)]
        c7reset).heldValue) :=
  c7_theorem c7state c7reset 0 3 [(-10, 1), (0, 2), (5, 3)]
    (by norm_num [c7state]) rfl (by simp)
    (by intro p hp; fin_cases hp <;> norm_num [NEGATIVE_INFINITY])
    (by norm_num [List.chain'_cons])

/-- C8: with forever-hold enabled, no sequence of timer ticks and sample
updates ever lowers `heldValue`; a timer tick leaves the whole state
unchanged; and the held value changes only when a strictly higher sample
arrives through `updateHeldValue`. -/
theorem c8_theorem (s : DecayingValueHolder) (es : List DVHEvent) (e : DVHEvent)
    (hinf : s.holdForInf = true) :
    s.heldValue ≤ (DVHEvent.applyAll es s).heldValue ∧
    (∀ now, DecayingValueHolder.timerCallback now s = s) ∧
    ((DVHEvent.apply e s).heldValue ≠ s.heldValue →
      ∃ x now, e = DVHEvent.newSample x now ∧ s.heldValue < x) := by
  refine ⟨(DVHEvent.applyAll_of_inf es s hinf).1, ?_, ?_⟩
  · intro now
    unfold DecayingValueHolder.timerCallback
    rw [if_pos hinf]
  · intro hne
    cases e with
    | timerTick now =>
      exfalso
      apply hne
      simp only [DVHEvent.apply]
      unfold DecayingValueHolder.timerCallback
      rw [if_pos hinf]
    | newSample x now =>
      simp only [DVHEvent.apply] at hne
      unfold DecayingValueHolder.updateHeldValue at hne
      by_cases hx : s.heldValue < x
      · exact ⟨x, now, rfl, hx⟩
      · rw [if_neg hx] at hne
        exact absurd rfl hne

/-- A concrete forever-hold tracker state for the C8 witness. -/
def c8state : DecayingValueHolder := ⟨true, 5, 0, 0, NEGATIVE_INFINITY, 1⟩

/-- C8, witness: the forever-hold guarantees at a concrete state and event
sequence. -/
theorem c8_witness :
    c8state.heldValue ≤
      (DVHEvent.applyAll [DVHEvent.timerTick 100, DVHEvent.newSample 3 101]
        c8state).heldValue ∧
    (∀ now, DecayingValueHolder.timerCallback now c8state = c8state) ∧
    ((DVHEvent.apply (DVHEvent.newSample 9 102) c8state).heldValue ≠
        c8state.heldValue →
      ∃ x now, DVHEvent.newSample 9 102 = DVHEvent.newSample x now ∧
        c8state.heldValue < x) :=
  c8_theorem c8state [DVHEvent.timerTick 100, DVHEvent.newSample 3 101]
    (DVHEvent.newSample 9 102) rfl

/-- C9, counterexample: resizing to zero length is neither rejected nor
clamped — `resize (0, v)` leaves an averager with zero elements — and the
next `add` indexes an empty vector and divides by zero (the undefined
out-of-bounds case, modelled `none`). -/
theorem c9_counterexample :
    ¬ (1 ≤ ((Averager.construct 3 0).resize 0 5).elements.length) ∧
    Averager.add ((Averager.construct 3 0).resize 0 5) 1 = none := by
  constructor
  · simp [Averager.construct, Averager.resize, Averager.clear,
      Averager.fieldDefaults]
  · simp [Averager.construct, Averager.resize, Averager.clear,
      Averager.fieldDefaults, Averager.add]

/-- C9 (amended): `resize (0, v)` is accepted verbatim: it leaves zero
elements (no minimum length is enforced), cursor 0 and `avg = v`; every
subsequent `add` then hits the out-of-bounds element access and
division-by-zero case (modelled `none`).  Callers only avoid this because
they derive window lengths of at least 1. -/
theorem c9_amended_theorem (s : Averager) (v t : ℚ) :
    (s.resize 0 v).elements = [] ∧
    (s.resize 0 v).writeIndex = 0 ∧
    (s.resize 0 v).avg = v ∧
    Averager.add (s.resize 0 v) t = none := by
  have he : (s.resize 0 v).elements = [] := by
    simp [Averager.resize, Averager.clear]
  refine ⟨he, rfl, rfl, ?_⟩
  unfold Averager.add
  rw [he]
  rfl

/-- C10: whenever forever-hold is off and more than `durationToHoldForMs`
milliseconds have elapsed since the recorded peak, a `ValueHolder` timer tick
sets `heldValue` to `currentValue` in a single assignment — the text meter's
held value snaps to the most recently input value rather than decaying
gradually — and `updateHeldValue (v)` always records `currentValue = v`. -/
theorem c10_theorem (s : ValueHolder) (now now2 : ℤ) (v : ℚ)
    (hinf : s.holdForInf = false)
    (helapsed : s.durationToHoldForMs < now - s.timeOfPeak) :
    (ValueHolder.timerCallback now s).heldValue = s.currentValue ∧
    ((ValueHolder.updateHeldValue v now2 s).1).currentValue = v := by
  constructor
  · unfold ValueHolder.timerCallback
    rw [if_pos ⟨hinf, helapsed⟩]
  · unfold ValueHolder.updateHeldValue
    split_ifs <;> rfl

/-- A concrete text-meter holder state for the C10 witness: current value
7 dB, held value 3 dB, hold duration 0, peak at time 0. -/
def c10state : ValueHolder := ⟨true, false, 0, 0, 7, 3, 0, false⟩

/-- C10, witness: at time 5 the tick snaps the held value to the current
value 7. -/
theorem c10_witness :
    (ValueHolder.timerCallback 5 c10state).heldValue = c10state.currentValue ∧
    ((ValueHolder.updateHeldValue 9 1 c10state).1).currentValue = 9 :=
  c10_theorem c10state 5 1 9 rfl (by norm_num [c10state])

end PFM10
